import Mathlib

/-!
Verification of the image-to-black/white conversion engine described in the
repository's specification, together with the PySide6 GUI adapter in
`gui_app.py`.  The GUI adapter is embedded from its Python source; the C
conversion backend (`bw_converter.c` / `libbwconvert.so`) is not part of the
repository snapshot, so the engine components are modelled from the
specification, as noted on each definition.
-/

/-- Modelled from the spec: the engine's exact fixed-point arithmetic
("scale by 16 and use integer division/remainder").  A value is
`num / 16 ^ exp`; scaling by a Floyd–Steinberg weight `k/16` multiplies the
numerator by `k` and raises the exponent, so no precision is ever lost. -/
structure Fx where
  num : Int
  exp : Nat
deriving DecidableEq

/-- Exact rational value of a fixed-point number. -/
def Fx.toRat (a : Fx) : Rat := (a.num : Rat) / (16 : Rat) ^ a.exp

/-- Fixed-point zero. -/
def Fx.zero : Fx := ⟨0, 0⟩

/-- Add two fixed-point numbers by aligning exponents. -/
def Fx.add (a b : Fx) : Fx :=
  ⟨a.num * 16 ^ (max a.exp b.exp - a.exp) + b.num * 16 ^ (max a.exp b.exp - b.exp),
   max a.exp b.exp⟩

/-- Add a natural-number sample to a fixed-point number. -/
def Fx.addNat (a : Fx) (g : Nat) : Fx := ⟨a.num + (g : Int) * 16 ^ a.exp, a.exp⟩

/-- Subtract a natural-number output level from a fixed-point number. -/
def Fx.subNat (a : Fx) (o : Nat) : Fx := ⟨a.num - (o : Int) * 16 ^ a.exp, a.exp⟩

/-- Multiply a fixed-point number by the Floyd–Steinberg weight `k / 16`. -/
def Fx.scale (k : Nat) (a : Fx) : Fx := ⟨a.num * (k : Int), a.exp + 1⟩

/-- Compare a fixed-point number against a natural-number threshold:
`t ≤ a` as exact rationals, decided on integers. -/
def Fx.geNat (a : Fx) (t : Nat) : Bool := (t : Int) * 16 ^ a.exp ≤ a.num

theorem Fx.toRat_zero : Fx.zero.toRat = 0 := by
  simp [Fx.toRat, Fx.zero]

theorem pow16_ne_zero (e : Nat) : ((16 : Rat) ^ e) ≠ 0 := by
  positivity

theorem Fx.toRat_shift (n : Int) (e m : Nat) (h : e ≤ m) :
    ((n * 16 ^ (m - e) : Int) : Rat) / (16 : Rat) ^ m = (n : Rat) / (16 : Rat) ^ e := by
  have hm : (16 : Rat) ^ m = (16 : Rat) ^ (m - e) * (16 : Rat) ^ e := by
    rw [← pow_add]
    congr 1
    omega
  rw [hm]
  push_cast
  rw [div_eq_div_iff (by positivity) (pow16_ne_zero e)]
  ring

theorem Fx.toRat_add (a b : Fx) : (a.add b).toRat = a.toRat + b.toRat := by
  unfold Fx.add Fx.toRat
  have ha : a.exp ≤ max a.exp b.exp := le_max_left _ _
  have hb : b.exp ≤ max a.exp b.exp := le_max_right _ _
  push_cast
  rw [add_div]
  have h1 := Fx.toRat_shift a.num a.exp (max a.exp b.exp) ha
  have h2 := Fx.toRat_shift b.num b.exp (max a.exp b.exp) hb
  push_cast at h1 h2
  rw [h1, h2]

theorem Fx.toRat_addNat (a : Fx) (g : Nat) : (a.addNat g).toRat = a.toRat + g := by
  unfold Fx.addNat Fx.toRat
  push_cast
  rw [add_div]
  congr 1
  rw [mul_div_assoc, div_self (pow16_ne_zero a.exp), mul_one]

theorem Fx.toRat_subNat (a : Fx) (o : Nat) : (a.subNat o).toRat = a.toRat - o := by
  unfold Fx.subNat Fx.toRat
  push_cast
  rw [sub_div]
  congr 1
  rw [mul_div_assoc, div_self (pow16_ne_zero a.exp), mul_one]

theorem Fx.toRat_scale (k : Nat) (a : Fx) :
    (a.scale k).toRat = a.toRat * k / 16 := by
  unfold Fx.scale Fx.toRat
  push_cast
  rw [pow_succ]
  field_simp

theorem Fx.geNat_iff (a : Fx) (t : Nat) :
    a.geNat t = true ↔ (t : Rat) ≤ a.toRat := by
  unfold Fx.geNat Fx.toRat
  rw [decide_eq_true_iff]
  rw [le_div_iff₀ (by positivity)]
  constructor
  · intro h
    calc (t : Rat) * (16 : Rat) ^ a.exp = (((t : Int) * 16 ^ a.exp : Int) : Rat) := by push_cast; ring
    _ ≤ (a.num : Rat) := by exact_mod_cast h
  · intro h
    have : (((t : Int) * 16 ^ a.exp : Int) : Rat) ≤ (a.num : Rat) := by
      calc (((t : Int) * 16 ^ a.exp : Int) : Rat) = (t : Rat) * (16 : Rat) ^ a.exp := by push_cast; ring
      _ ≤ (a.num : Rat) := h
    exact_mod_cast this

/-- Modelled from the spec: canonical raster buffer used for both the
grayscale and the binary stage — width, height, one 8-bit sample per pixel
in row-major order. -/
structure Buffer where
  width : Nat
  height : Nat
  data : List Nat
deriving DecidableEq

/-- Row-major pixel access with default 0 outside the stored data. -/
def Buffer.getPixel (b : Buffer) (x y : Nat) : Nat :=
  b.data.getD (y * b.width + x) 0

/-- Modelled from the spec: raster processing order — row 0 left to right,
then row 1, and so on; no serpentine reversal. -/
def rasterOrder (w h : Nat) : List (Nat × Nat) :=
  (List.range h).flatMap fun y => (List.range w).map fun x => (x, y)

/-- State threaded through the dithering pass: the binary output written so
far and the error accumulator. -/
structure DitherState where
  out : Nat × Nat → Nat
  err : Nat × Nat → Fx

/-- Add an error contribution at a target position, dropping it when the
target falls outside the buffer bounds. -/
def deposit (w h : Nat) (p : Nat × Nat) (v : Fx) (e : Nat × Nat → Fx) :
    Nat × Nat → Fx :=
  if p.1 < w ∧ p.2 < h then fun q => if q = p then (e q).add v else e q else e

/-- Modelled from the spec: one pixel of the Floyd–Steinberg pass.  The
biased value is the grayscale sample plus the carried-in error; the output
is 255 when the biased value reaches the threshold, else 0; the
quantization error is diffused 7/16 right, 3/16 down-left, 5/16 down and
1/16 down-right, with out-of-bounds contributions dropped (the down-left
target is also dropped in column 0). -/
def fsStep (g : Nat → Nat → Nat) (w h thr : Nat) (s : DitherState)
    (p : Nat × Nat) : DitherState :=
  let biased := (s.err p).addNat (g p.1 p.2)
  let o := if biased.geNat thr then 255 else 0
  let qe := biased.subNat o
  let e1 := deposit w h (p.1 + 1, p.2) (Fx.scale 7 qe) s.err
  let e2 := if 0 < p.1 then deposit w h (p.1 - 1, p.2 + 1) (Fx.scale 3 qe) e1 else e1
  let e3 := deposit w h (p.1, p.2 + 1) (Fx.scale 5 qe) e2
  let e4 := deposit w h (p.1 + 1, p.2 + 1) (Fx.scale 1 qe) e3
  ⟨fun q => if q = p then o else s.out q, e4⟩

/-- Modelled from the spec: the full dithering pass over a grayscale field,
folding `fsStep` over the raster order from an all-zero state. -/
def dither (g : Nat → Nat → Nat) (w h thr : Nat) : DitherState :=
  (rasterOrder w h).foldl (fsStep g w h thr) ⟨fun _ => 0, fun _ => Fx.zero⟩

/-- Modelled from the spec: the Ditherer component, GrayscaleBuffer plus
validated threshold to BinaryBuffer. -/
def runDither (b : Buffer) (thr : Nat) : Buffer :=
  ⟨b.width, b.height,
   (rasterOrder b.width b.height).map (dither b.getPixel b.width b.height thr).out⟩

/-- Modelled from the spec: the Inverter component, pixelwise `255 - v`. -/
def invert (b : Buffer) : Buffer :=
  ⟨b.width, b.height, b.data.map fun v => 255 - v⟩

/-- Number of white (255) samples in a buffer. -/
def whiteCount (b : Buffer) : Nat := b.data.countP fun v => v == 255

/-- Uniform grayscale field of value `v`. -/
def uniformBuffer (w h v : Nat) : Buffer := ⟨w, h, List.replicate (w * h) v⟩

/-- Raster precedence: `p` is processed strictly before `c`. -/
def lexLt (p c : Nat × Nat) : Prop :=
  p.2 < c.2 ∨ (p.2 = c.2 ∧ p.1 < c.1)

instance (p c : Nat × Nat) : Decidable (lexLt p c) := by
  unfold lexLt
  exact inferInstance

/-- Exact rational quantization error of the Floyd–Steinberg recurrence at a
pixel: the biased value (grayscale sample plus the kernel-weighted errors
received from the already-visited neighbors) minus the quantized output. -/
def qeS (g : Nat → Nat → Nat) (w thr : Nat) : Nat × Nat → Rat
  | (x, y) =>
    let e : Rat :=
      (if h1 : 0 < x then 7 / 16 * qeS g w thr (x - 1, y) else 0)
      + (if h2 : 0 < y ∧ x + 1 < w then 3 / 16 * qeS g w thr (x + 1, y - 1) else 0)
      + (if h3 : 0 < y ∧ x < w then 5 / 16 * qeS g w thr (x, y - 1) else 0)
      + (if h4 : 0 < x ∧ 0 < y then 1 / 16 * qeS g w thr (x - 1, y - 1) else 0)
    let b : Rat := (g x y : Rat) + e
    b - (if (thr : Rat) ≤ b then 255 else 0)
termination_by p => (p.2, p.1)
decreasing_by
  · exact Prod.Lex.right y (Nat.sub_lt h1 Nat.one_pos)
  · exact Prod.Lex.left _ _ (Nat.sub_lt h2.1 Nat.one_pos)
  · exact Prod.Lex.left _ _ (Nat.sub_lt h3.1 Nat.one_pos)
  · exact Prod.Lex.left _ _ (Nat.sub_lt h4.2 Nat.one_pos)

/-- Exact rational error flowing into a pixel: the kernel-weighted sum of
the quantization errors of its already-visited in-bounds neighbors — 7/16
from the left, 3/16 from the upper right, 5/16 from above, 1/16 from the
upper left; a term is dropped when the corresponding source would fall
outside the buffer. -/
def errInS (g : Nat → Nat → Nat) (w thr : Nat) (q : Nat × Nat) : Rat :=
  (if 0 < q.1 then 7 / 16 * qeS g w thr (q.1 - 1, q.2) else 0)
  + (if 0 < q.2 ∧ q.1 + 1 < w then 3 / 16 * qeS g w thr (q.1 + 1, q.2 - 1) else 0)
  + (if 0 < q.2 ∧ q.1 < w then 5 / 16 * qeS g w thr (q.1, q.2 - 1) else 0)
  + (if 0 < q.1 ∧ 0 < q.2 then 1 / 16 * qeS g w thr (q.1 - 1, q.2 - 1) else 0)

/-- Exact rational biased value of a pixel. -/
def biasedS (g : Nat → Nat → Nat) (w thr : Nat) (q : Nat × Nat) : Rat :=
  (g q.1 q.2 : Rat) + errInS g w thr q

/-- Exact rational quantized output of a pixel. -/
def outS (g : Nat → Nat → Nat) (w thr : Nat) (q : Nat × Nat) : Nat :=
  if (thr : Rat) ≤ biasedS g w thr q then 255 else 0

set_option maxHeartbeats 1000000 in
theorem qeS_eq (g : Nat → Nat → Nat) (w thr : Nat) (q : Nat × Nat) :
    qeS g w thr q = biasedS g w thr q - (outS g w thr q : Rat) := by
  obtain ⟨x, y⟩ := q
  rw [qeS]
  simp only [dite_eq_ite, errInS, biasedS, outS]
  split <;> simp

/-- Partial error received at `q` from the sources already visited before the
cutoff position `c`: the kernel-weighted quantization errors of the in-bounds
neighbors of `q` that precede `c` in raster order. -/
def errB (g : Nat → Nat → Nat) (w thr : Nat) (c q : Nat × Nat) : Rat :=
  (if 0 < q.1 ∧ lexLt (q.1 - 1, q.2) c then 7 / 16 * qeS g w thr (q.1 - 1, q.2) else 0)
  + (if (0 < q.2 ∧ q.1 + 1 < w) ∧ lexLt (q.1 + 1, q.2 - 1) c then
      3 / 16 * qeS g w thr (q.1 + 1, q.2 - 1) else 0)
  + (if (0 < q.2 ∧ q.1 < w) ∧ lexLt (q.1, q.2 - 1) c then
      5 / 16 * qeS g w thr (q.1, q.2 - 1) else 0)
  + (if (0 < q.1 ∧ 0 < q.2) ∧ lexLt (q.1 - 1, q.2 - 1) c then
      1 / 16 * qeS g w thr (q.1 - 1, q.2 - 1) else 0)


/-- Invariant of the dithering fold at cutoff `c`: every in-bounds pixel
before `c` carries its specified output, and every in-bounds error cell holds
exactly the contributions of the sources before `c`. -/
def DInv (g : Nat → Nat → Nat) (w h thr : Nat) (c : Nat × Nat) (s : DitherState) : Prop :=
  (∀ p : Nat × Nat, p.1 < w → p.2 < h → lexLt p c → s.out p = outS g w thr p) ∧
  (∀ q : Nat × Nat, q.1 < w → q.2 < h → (s.err q).toRat = errB g w thr c q)

theorem errB_cutoff_iff (g : Nat → Nat → Nat) (w thr : Nat) (c c' : Nat × Nat)
    (q : Nat × Nat)
    (i1 : 0 < q.1 → (lexLt (q.1 - 1, q.2) c ↔ lexLt (q.1 - 1, q.2) c'))
    (i2 : 0 < q.2 ∧ q.1 + 1 < w → (lexLt (q.1 + 1, q.2 - 1) c ↔ lexLt (q.1 + 1, q.2 - 1) c'))
    (i3 : 0 < q.2 ∧ q.1 < w → (lexLt (q.1, q.2 - 1) c ↔ lexLt (q.1, q.2 - 1) c'))
    (i4 : 0 < q.1 ∧ 0 < q.2 → (lexLt (q.1 - 1, q.2 - 1) c ↔ lexLt (q.1 - 1, q.2 - 1) c')) :
    errB g w thr c q = errB g w thr c' q := by
  unfold errB
  have e1 : (0 < q.1 ∧ lexLt (q.1 - 1, q.2) c) ↔ (0 < q.1 ∧ lexLt (q.1 - 1, q.2) c') :=
    ⟨fun hh => ⟨hh.1, (i1 hh.1).mp hh.2⟩, fun hh => ⟨hh.1, (i1 hh.1).mpr hh.2⟩⟩
  have e2 : ((0 < q.2 ∧ q.1 + 1 < w) ∧ lexLt (q.1 + 1, q.2 - 1) c) ↔
      ((0 < q.2 ∧ q.1 + 1 < w) ∧ lexLt (q.1 + 1, q.2 - 1) c') :=
    ⟨fun hh => ⟨hh.1, (i2 hh.1).mp hh.2⟩, fun hh => ⟨hh.1, (i2 hh.1).mpr hh.2⟩⟩
  have e3 : ((0 < q.2 ∧ q.1 < w) ∧ lexLt (q.1, q.2 - 1) c) ↔
      ((0 < q.2 ∧ q.1 < w) ∧ lexLt (q.1, q.2 - 1) c') :=
    ⟨fun hh => ⟨hh.1, (i3 hh.1).mp hh.2⟩, fun hh => ⟨hh.1, (i3 hh.1).mpr hh.2⟩⟩
  have e4 : ((0 < q.1 ∧ 0 < q.2) ∧ lexLt (q.1 - 1, q.2 - 1) c) ↔
      ((0 < q.1 ∧ 0 < q.2) ∧ lexLt (q.1 - 1, q.2 - 1) c') :=
    ⟨fun hh => ⟨hh.1, (i4 hh.1).mp hh.2⟩, fun hh => ⟨hh.1, (i4 hh.1).mpr hh.2⟩⟩
  rw [if_congr e1 rfl rfl, if_congr e2 rfl rfl, if_congr e3 rfl rfl, if_congr e4 rfl rfl]

theorem errB_eq_errInS (g : Nat → Nat → Nat) (w thr : Nat) (c : Nat × Nat)
    (q : Nat × Nat)
    (i1 : 0 < q.1 → lexLt (q.1 - 1, q.2) c)
    (i2 : 0 < q.2 ∧ q.1 + 1 < w → lexLt (q.1 + 1, q.2 - 1) c)
    (i3 : 0 < q.2 ∧ q.1 < w → lexLt (q.1, q.2 - 1) c)
    (i4 : 0 < q.1 ∧ 0 < q.2 → lexLt (q.1 - 1, q.2 - 1) c) :
    errB g w thr c q = errInS g w thr q := by
  unfold errB errInS
  have e1 : (0 < q.1 ∧ lexLt (q.1 - 1, q.2) c) ↔ 0 < q.1 :=
    ⟨And.left, fun hh => ⟨hh, i1 hh⟩⟩
  have e2 : ((0 < q.2 ∧ q.1 + 1 < w) ∧ lexLt (q.1 + 1, q.2 - 1) c) ↔ 0 < q.2 ∧ q.1 + 1 < w :=
    ⟨And.left, fun hh => ⟨hh, i2 hh⟩⟩
  have e3 : ((0 < q.2 ∧ q.1 < w) ∧ lexLt (q.1, q.2 - 1) c) ↔ 0 < q.2 ∧ q.1 < w :=
    ⟨And.left, fun hh => ⟨hh, i3 hh⟩⟩
  have e4 : ((0 < q.1 ∧ 0 < q.2) ∧ lexLt (q.1 - 1, q.2 - 1) c) ↔ 0 < q.1 ∧ 0 < q.2 :=
    ⟨And.left, fun hh => ⟨hh, i4 hh⟩⟩
  rw [if_congr e1 rfl rfl, if_congr e2 rfl rfl, if_congr e3 rfl rfl, if_congr e4 rfl rfl]

theorem errB_zero (g : Nat → Nat → Nat) (w thr : Nat) (q : Nat × Nat) :
    errB g w thr (0, 0) q = 0 := by
  unfold errB
  rw [if_neg, if_neg, if_neg, if_neg]
  · simp
  · intro hh
    have := hh.2
    simp only [lexLt] at this
    omega
  · intro hh
    have := hh.2
    simp only [lexLt] at this
    omega
  · intro hh
    have := hh.2
    simp only [lexLt] at this
    omega
  · intro hh
    have := hh.2
    simp only [lexLt] at this
    omega

theorem errB_self (g : Nat → Nat → Nat) (w thr : Nat) (q : Nat × Nat) :
    errB g w thr q q = errInS g w thr q := by
  apply errB_eq_errInS <;> intro hh <;> unfold lexLt <;> omega

theorem errB_final (g : Nat → Nat → Nat) (w thr h : Nat) (q : Nat × Nat)
    (hq2 : q.2 < h) : errB g w thr (0, h) q = errInS g w thr q := by
  apply errB_eq_errInS <;> intro hh <;> unfold lexLt <;> omega

theorem errB_rowend (g : Nat → Nat → Nat) (w thr y : Nat) (q : Nat × Nat)
    (hq1 : q.1 < w) : errB g w thr (w, y) q = errB g w thr (0, y + 1) q := by
  apply errB_cutoff_iff <;> intro hh <;> unfold lexLt <;>
    constructor <;> intro hh2 <;> omega

theorem lexLt_def (a b c d : Nat) : lexLt (a, b) (c, d) ↔ (b < d ∨ (b = d ∧ a < c)) :=
  Iff.rfl

theorem lexLt_succ_iff (s : Nat × Nat) (x y : Nat) :
    lexLt s (x + 1, y) ↔ lexLt s (x, y) ∨ s = (x, y) := by
  obtain ⟨a, b⟩ := s
  unfold lexLt
  simp only [Prod.mk.injEq]
  omega

theorem ite_lex_adv (cond : Prop) [Decidable cond] (s : Nat × Nat) (x y : Nat) (v : Rat) :
    (if cond ∧ lexLt s (x + 1, y) then v else 0)
      = (if cond ∧ lexLt s (x, y) then v else 0) + (if cond ∧ s = (x, y) then v else 0) := by
  by_cases hc : cond
  · by_cases he : s = (x, y)
    · subst he
      have hf : ¬ lexLt (x, y) (x, y) := by unfold lexLt; omega
      have ht : lexLt (x, y) (x + 1, y) := by unfold lexLt; omega
      simp [hc, hf, ht]
    · have hiff : lexLt s (x + 1, y) ↔ lexLt s (x, y) := by
        rw [lexLt_succ_iff]
        simp [he]
      simp [hc, he, hiff]
  · simp [hc]

theorem errB_advance (g : Nat → Nat → Nat) (w thr x y : Nat) (q : Nat × Nat) :
    errB g w thr (x + 1, y) q = errB g w thr (x, y) q
      + (if 0 < q.1 ∧ (q.1 - 1, q.2) = (x, y) then 7 / 16 * qeS g w thr (q.1 - 1, q.2) else 0)
      + (if (0 < q.2 ∧ q.1 + 1 < w) ∧ (q.1 + 1, q.2 - 1) = (x, y) then
          3 / 16 * qeS g w thr (q.1 + 1, q.2 - 1) else 0)
      + (if (0 < q.2 ∧ q.1 < w) ∧ (q.1, q.2 - 1) = (x, y) then
          5 / 16 * qeS g w thr (q.1, q.2 - 1) else 0)
      + (if (0 < q.1 ∧ 0 < q.2) ∧ (q.1 - 1, q.2 - 1) = (x, y) then
          1 / 16 * qeS g w thr (q.1 - 1, q.2 - 1) else 0) := by
  unfold errB
  rw [ite_lex_adv (0 < q.1) (q.1 - 1, q.2) x y,
      ite_lex_adv (0 < q.2 ∧ q.1 + 1 < w) (q.1 + 1, q.2 - 1) x y,
      ite_lex_adv (0 < q.2 ∧ q.1 < w) (q.1, q.2 - 1) x y,
      ite_lex_adv (0 < q.1 ∧ 0 < q.2) (q.1 - 1, q.2 - 1) x y]
  ring

theorem deposit_eval (w h : Nat) (p : Nat × Nat) (v : Fx) (e : Nat × Nat → Fx)
    (q : Nat × Nat) :
    deposit w h p v e q = if p.1 < w ∧ p.2 < h ∧ q = p then (e q).add v else e q := by
  unfold deposit
  by_cases hb : p.1 < w ∧ p.2 < h <;> by_cases hq : q = p <;> simp [hb, hq]

set_option maxHeartbeats 4000000 in
theorem dinv_step (g : Nat → Nat → Nat) (w h thr x y : Nat) (hx : x < w) (hy : y < h)
    (s : DitherState) (H : DInv g w h thr (x, y) s) :
    DInv g w h thr (x + 1, y) (fsStep g w h thr s (x, y)) := by
  obtain ⟨Hout, Herr⟩ := H
  have herr : (s.err (x, y)).toRat = errInS g w thr (x, y) := by
    rw [Herr (x, y) hx hy, errB_self]
  have hbias : ((s.err (x, y)).addNat (g x y)).toRat = biasedS g w thr (x, y) := by
    rw [Fx.toRat_addNat, herr]
    simp only [biasedS]
    ring
  have ho : (if ((s.err (x, y)).addNat (g x y)).geNat thr = true then (255 : Nat) else 0)
      = outS g w thr (x, y) := by
    by_cases hge : ((s.err (x, y)).addNat (g x y)).geNat thr = true
    · rw [if_pos hge]
      unfold outS
      rw [if_pos]
      rw [← hbias]
      exact (Fx.geNat_iff _ _).mp hge
    · rw [if_neg hge]
      unfold outS
      rw [if_neg]
      intro hc
      apply hge
      apply (Fx.geNat_iff _ _).mpr
      rw [hbias]
      exact hc
  have hqe : (((s.err (x, y)).addNat (g x y)).subNat
      (if ((s.err (x, y)).addNat (g x y)).geNat thr = true then 255 else 0)).toRat
      = qeS g w thr (x, y) := by
    rw [Fx.toRat_subNat, hbias, ho, qeS_eq]
  constructor
  · intro p hp1 hp2 hplex
    simp only [fsStep]
    by_cases hpe : p = (x, y)
    · subst hpe
      rw [if_pos rfl]
      exact ho
    · rw [if_neg hpe]
      apply Hout p hp1 hp2
      obtain ⟨a, b⟩ := p
      unfold lexLt at hplex ⊢
      rw [Prod.mk.injEq] at hpe
      simp only at hplex ⊢
      omega
  · intro q hq1 hq2
    obtain ⟨a, b⟩ := q
    have ha : a < w := hq1
    have hb : b < h := hq2
    simp only [fsStep]
    rw [deposit_eval, deposit_eval, ite_apply, deposit_eval, deposit_eval]
    rw [errB_advance]
    generalize hE : (((s.err (x, y)).addNat (g x y)).subNat
        (if ((s.err (x, y)).addNat (g x y)).geNat thr = true then 255 else 0)) = E
    rw [hE] at hqe
    by_cases h7 : (a, b) = (x + 1, y)
    · rw [Prod.mk.injEq] at h7
      obtain ⟨ha7, hb7⟩ := h7
      subst ha7
      subst hb7
      simp only [Prod.mk.injEq, Nat.add_sub_cancel, eq_self_iff_true, true_and, and_true]
      split_ifs <;>
        first
          | omega
          | (simp only [Fx.toRat_add, Fx.toRat_scale, hqe, Herr _ hq1 hq2]; ring)
    · by_cases h5 : (a, b) = (x, y + 1)
      · rw [Prod.mk.injEq] at h5
        obtain ⟨ha5, hb5⟩ := h5
        subst ha5
        subst hb5
        simp only [Prod.mk.injEq, Nat.add_sub_cancel, eq_self_iff_true, true_and, and_true]
        split_ifs <;>
          first
            | omega
            | (simp only [Fx.toRat_add, Fx.toRat_scale, hqe, Herr _ hq1 hq2]; ring)
      · by_cases h1c : (a, b) = (x + 1, y + 1)
        · rw [Prod.mk.injEq] at h1c
          obtain ⟨ha1, hb1⟩ := h1c
          subst ha1
          subst hb1
          simp only [Prod.mk.injEq, Nat.add_sub_cancel, eq_self_iff_true, true_and, and_true]
          split_ifs <;>
            first
              | omega
              | (simp only [Fx.toRat_add, Fx.toRat_scale, hqe, Herr _ hq1 hq2]; ring)
        · by_cases hB : (a, b) = (x - 1, y + 1) ∧ 0 < x
          · obtain ⟨hab, hx0⟩ := hB
            rw [Prod.mk.injEq] at hab
            obtain ⟨haB, hbB⟩ := hab
            subst haB
            subst hbB
            have hxx : x - 1 + 1 = x := by omega
            simp only [Prod.mk.injEq, Nat.add_sub_cancel, hxx, eq_self_iff_true, true_and,
              and_true]
            split_ifs <;>
              first
                | omega
                | (simp only [Fx.toRat_add, Fx.toRat_scale, hqe, Herr _ hq1 hq2]; ring)
          · rw [Prod.mk.injEq] at h7 h5 h1c
            rw [Prod.mk.injEq] at hB
            simp only [Prod.mk.injEq, Nat.add_sub_cancel, eq_self_iff_true, true_and,
              and_true]
            split_ifs <;>
              first
                | omega
                | (simp only [Fx.toRat_add, Fx.toRat_scale, hqe, Herr _ hq1 hq2]; ring)

theorem dinv_rowend (g : Nat → Nat → Nat) (w h thr y : Nat) (s : DitherState)
    (H : DInv g w h thr (w, y) s) : DInv g w h thr (0, y + 1) s := by
  obtain ⟨Hout, Herr⟩ := H
  constructor
  · intro p hp1 hp2 hplex
    apply Hout p hp1 hp2
    obtain ⟨a, b⟩ := p
    unfold lexLt at hplex ⊢
    simp only at hplex hp1 ⊢
    omega
  · intro q hq1 hq2
    rw [Herr q hq1 hq2, errB_rowend g w thr y q hq1]

theorem dinv_row (g : Nat → Nat → Nat) (w h thr y : Nat) (hy : y < h) :
    ∀ (n x0 : Nat) (s : DitherState), x0 + n = w → DInv g w h thr (x0, y) s →
      DInv g w h thr (w, y)
        (((List.range' x0 n).map fun x => (x, y)).foldl (fsStep g w h thr) s) := by
  intro n
  induction n with
  | zero =>
    intro x0 s hsum H
    have hx0 : x0 = w := by omega
    subst hx0
    simpa using H
  | succ n ih =>
    intro x0 s hsum H
    rw [List.range'_succ x0 n 1]
    simp only [List.map_cons, List.foldl_cons]
    apply ih (x0 + 1) _ (by omega)
    exact dinv_step g w h thr x0 y (by omega) hy s H

theorem dinv_rows (g : Nat → Nat → Nat) (w h thr : Nat) :
    ∀ (m y0 : Nat) (s : DitherState), y0 + m = h → DInv g w h thr (0, y0) s →
      DInv g w h thr (0, h)
        (((List.range' y0 m).flatMap fun y => (List.range w).map fun x => (x, y)).foldl
          (fsStep g w h thr) s) := by
  intro m
  induction m with
  | zero =>
    intro y0 s hsum H
    have hy0 : y0 = h := by omega
    subst hy0
    simpa using H
  | succ m ih =>
    intro y0 s hsum H
    rw [List.range'_succ y0 m 1]
    simp only [List.flatMap_cons, List.foldl_append]
    apply ih (y0 + 1) _ (by omega)
    apply dinv_rowend
    have hy0 : y0 < h := by omega
    have hrow := dinv_row g w h thr y0 hy0 w 0 s (by omega) H
    rw [List.range_eq_range']
    exact hrow

theorem dither_dinv (g : Nat → Nat → Nat) (w h thr : Nat) :
    DInv g w h thr (0, h) (dither g w h thr) := by
  unfold dither rasterOrder
  rw [List.range_eq_range']
  apply dinv_rows g w h thr h 0 _ (by omega)
  constructor
  · intro p hp1 hp2 hplex
    exfalso
    obtain ⟨a, b⟩ := p
    unfold lexLt at hplex
    simp only at hplex
    omega
  · intro q hq1 hq2
    rw [errB_zero]
    exact Fx.toRat_zero

theorem dither_out (g : Nat → Nat → Nat) (w h thr x y : Nat) (hx : x < w) (hy : y < h) :
    (dither g w h thr).out (x, y) = outS g w thr (x, y) := by
  have H := dither_dinv g w h thr
  apply H.1 (x, y) hx hy
  unfold lexLt
  simp only
  omega

theorem dither_err (g : Nat → Nat → Nat) (w h thr x y : Nat) (hx : x < w) (hy : y < h) :
    ((dither g w h thr).err (x, y)).toRat = errInS g w thr (x, y) := by
  have H := dither_dinv g w h thr
  rw [H.2 (x, y) hx hy]
  exact errB_final g w thr h (x, y) hy

/-- Modelled from the spec: canonical decoded pixel buffer — width, height,
channel count in {1,3,4}, row-major interleaved 8-bit samples. -/
structure PixelBuffer where
  width : Nat
  height : Nat
  channels : Nat
  data : List Nat
deriving DecidableEq

/-- Modelled from the spec: the Image Loader's byte-level decoder.  The
backend's actual container formats (PNG, JPEG, ...) are abstracted into one
canonical sniffable layout `width :: height :: channels :: samples`; the
decoder validates structure and returns `none` (DecodeError) on anything
else — in particular on an empty byte stream. -/
def decode (bytes : List Nat) : Option PixelBuffer :=
  match bytes with
  | wB :: hB :: cB :: rest =>
    if 0 < wB ∧ 0 < hB ∧ (cB = 1 ∨ cB = 3 ∨ cB = 4) ∧
        rest.length = wB * hB * cB ∧ rest.all (fun v => v < 256) then
      some ⟨wB, hB, cB, rest⟩
    else none
  | _ => none

/-- Modelled from the spec: perceptual luma, `round(0.299 R + 0.587 G +
0.114 B)` computed exactly in integers, clamped to 255. -/
def luma (r g b : Nat) : Nat :=
  min 255 ((299 * r + 587 * g + 114 * b + 500) / 1000)

/-- Modelled from the spec: the Grayscale Reducer.  Single-channel input
passes through unchanged; 3- and 4-channel input is reduced pixelwise by
`luma`, ignoring alpha. -/
def toGray (p : PixelBuffer) : Buffer :=
  if p.channels = 1 then ⟨p.width, p.height, p.data⟩
  else
    ⟨p.width, p.height,
     (List.range (p.width * p.height)).map fun i =>
       luma (p.data.getD (i * p.channels) 0) (p.data.getD (i * p.channels + 1) 0)
         (p.data.getD (i * p.channels + 2) 0)⟩

/-- Split a row into chunks of at most eight samples. -/
def chunk8 (l : List Nat) : List (List Nat) :=
  if hl : l = [] then [] else l.take 8 :: chunk8 (l.drop 8)
termination_by l.length
decreasing_by
  simp only [List.length_drop]
  have : l.length ≠ 0 := fun hz => hl (List.length_eq_zero.mp hz)
  omega

/-- Pack up to eight binary samples into one byte, most significant bit
first, padding the final partial byte with zero bits. -/
def packByte (ch : List Nat) : Nat :=
  (ch.foldl (fun acc v => acc * 2 + (if v = 255 then 1 else 0)) 0) * 2 ^ (8 - ch.length)

/-- Modelled from the spec: the Bilevel PNG Encoder's payload — each row
packed to whole bytes, bits MSB-first, preceded by the dimensions (the
remaining PNG container framing is abstracted away). -/
def encodePNG (b : Buffer) : List Nat :=
  b.width :: b.height ::
    ((List.range b.height).map fun y =>
      ((List.range b.width).map fun x => b.getPixel x y)).flatMap
        fun row => (chunk8 row).map packByte

/-- Pipeline stages traversed by the Orchestrator, in order. -/
inductive Stage where
  | validate
  | load
  | sniff
  | gray
  | diff
  | flip
  | write
deriving DecidableEq

/-- Outcome of one conversion request: status code, bytes now present at the
output path (`none` when the output path is untouched), whether a temporary
file is left behind, the stages traversed, and the verbose diagnostics. -/
structure ConvResult where
  status : Nat
  outBytes : Option (List Nat)
  tempLeft : Bool
  stages : List Stage
  diags : List Stage
deriving DecidableEq

/-- Modelled from the spec: dithering then optional inversion — the
BinaryBuffer handed to the encoder.  The invert flag is the C int passed by
callers; it inverts when nonzero. -/
def pipelineBin (p : PixelBuffer) (thr : Nat) (inv : Int) : Buffer :=
  let bin := runDither (toGray p) thr
  if inv = 0 then bin else invert bin

/-- Modelled from the spec: the engine entry point
`convert_image_bw(input, output, threshold, invert, verbose)`.  The world is
modelled by `fs` (bytes readable at each path, `none` meaning
missing/unreadable) and `writeOk` (whether the output directory accepts the
temp-file write/rename).  Status codes: 0 success, 1 IOError, 2 DecodeError,
3 EncodeError, 4 InvalidArgument; verbose emits per-stage diagnostics and
touches nothing else.  On the encode path a temporary file is created, then
either renamed over the output on success or deleted on failure, so
`tempLeft` is always false and the output path is written only as a whole. -/
def convert_image_bw (fs : String → Option (List Nat)) (writeOk : Bool)
    (input_path output_path : String) (threshold : Int) (inv verbose : Int) : ConvResult :=
  if threshold < 0 ∨ 255 < threshold ∨ input_path = "" ∨ output_path = "" then
    ⟨4, none, false, [Stage.validate],
     if verbose = 0 then [] else [Stage.validate]⟩
  else
    match fs input_path with
    | none =>
      ⟨1, none, false, [Stage.validate, Stage.load],
       if verbose = 0 then [] else [Stage.validate, Stage.load]⟩
    | some bytes =>
      match decode bytes with
      | none =>
        ⟨2, none, false, [Stage.validate, Stage.load, Stage.sniff],
         if verbose = 0 then [] else [Stage.validate, Stage.load, Stage.sniff]⟩
      | some pix =>
        let png := encodePNG (pipelineBin pix threshold.toNat inv)
        if writeOk then
          ⟨0, some png, false,
           [Stage.validate, Stage.load, Stage.sniff, Stage.gray, Stage.diff,
            Stage.flip, Stage.write],
           if verbose = 0 then []
           else [Stage.validate, Stage.load, Stage.sniff, Stage.gray, Stage.diff,
                 Stage.flip, Stage.write]⟩
        else
          ⟨3, none, false,
           [Stage.validate, Stage.load, Stage.sniff, Stage.gray, Stage.diff,
            Stage.flip, Stage.write],
           if verbose = 0 then []
           else [Stage.validate, Stage.load, Stage.sniff, Stage.gray, Stage.diff,
                 Stage.flip, Stage.write]⟩

/-- Python's `str.strip()` from the GUI handler: drop leading and trailing
whitespace characters. -/
def stripStr (s : String) : String :=
  ⟨((s.data.dropWhile Char.isWhitespace).reverse.dropWhile Char.isWhitespace).reverse⟩

/-- What the GUI convert handler does after reading its widgets: either it
only sets a status message, or it invokes the backend with the given
arguments. -/
inductive GuiAction where
  | message (text : String)
  | callBackend (input_path output_path : String) (threshold : Int) (inv verbose : Int)
deriving DecidableEq

/-- The convert handler of `BWConverter` (gui_app.py lines 137-151): strip
both path fields; if either is empty, set the status label and return
without calling the backend; otherwise call `lib.convert_image_bw` with the
stripped paths, the slider value, and the checkbox states as ints. -/
def BWConverter.convert (inputText outputText : String) (sliderVal : Int)
    (invChecked verbChecked : Bool) : GuiAction :=
  let in_path := stripStr inputText
  let out_path := stripStr outputText
  if in_path = "" ∨ out_path = "" then
    GuiAction.message "Please choose both input and output."
  else
    GuiAction.callBackend in_path out_path sliderVal
      (if invChecked then 1 else 0) (if verbChecked then 1 else 0)

/-- The threshold slider (gui_app.py lines 79-81): range 0-255, initial
value 128; `setValue` clamps into the range.  The slider's value after any
sequence of user set events. -/
def sliderValue (sets : List Int) : Int :=
  sets.foldl (fun _ v => max 0 (min 255 v)) 128

/-- White pixels among the first `n` positions of row 0 of the exact
recurrence. -/
def cnt (g : Nat → Nat → Nat) (w thr n : Nat) : Nat :=
  (List.range n).countP fun k => outS g w thr (k, 0) == 255

theorem errInS_row_zero (g : Nat → Nat → Nat) (w thr : Nat) :
    errInS g w thr (0, 0) = 0 := by
  unfold errInS
  norm_num

theorem errInS_row_succ (g : Nat → Nat → Nat) (w thr n : Nat) :
    errInS g w thr (n + 1, 0) = 7 / 16 * qeS g w thr (n, 0) := by
  unfold errInS
  norm_num

theorem outS_row (g : Nat → Nat → Nat) (w thr n : Nat) :
    outS g w thr (n, 0)
      = if (thr : Rat) ≤ (g n 0 : Rat) + errInS g w thr (n, 0) then 255 else 0 := by
  unfold outS biasedS
  rfl

theorem qeS_row (g : Nat → Nat → Nat) (w thr n : Nat) :
    qeS g w thr (n, 0)
      = (g n 0 : Rat) + errInS g w thr (n, 0) - (outS g w thr (n, 0) : Rat) := by
  rw [qeS_eq]
  unfold biasedS
  rfl

theorem cnt_succ (g : Nat → Nat → Nat) (w thr n : Nat) :
    cnt g w thr (n + 1) = cnt g w thr n + (if outS g w thr (n, 0) = 255 then 1 else 0) := by
  unfold cnt
  rw [List.range_succ, List.countP_append]
  simp [List.countP_cons]

set_option maxHeartbeats 1000000 in
theorem row_lockstep (g : Nat → Nat → Nat) (w t1 t2 : Nat) (hlt : t1 < t2) :
    ∀ n, cnt g w t2 n ≤ cnt g w t1 n ∧
      -112 * ((cnt g w t1 n : Rat) - (cnt g w t2 n : Rat))
        ≤ errInS g w t1 (n, 0) - errInS g w t2 (n, 0) := by
  intro n
  induction n with
  | zero =>
    constructor
    · simp [cnt]
    · rw [errInS_row_zero, errInS_row_zero]
      simp [cnt]
  | succ n ih =>
    obtain ⟨ihc, ihd⟩ := ih
    have hC : (0 : Rat) ≤ (cnt g w t1 n : Rat) - (cnt g w t2 n : Rat) := by
      have := (Nat.cast_le (α := Rat)).mpr ihc
      linarith
    have key : 7 / 16 * (-112 * ((cnt g w t1 n : Rat) - (cnt g w t2 n : Rat)))
        ≤ 7 / 16 * (errInS g w t1 (n, 0) - errInS g w t2 (n, 0)) :=
      mul_le_mul_of_nonneg_left ihd (by norm_num)
    rw [cnt_succ g w t1 n, cnt_succ g w t2 n, errInS_row_succ, errInS_row_succ,
      qeS_row, qeS_row]
    by_cases hc1 : (t1 : Rat) ≤ (g n 0 : Rat) + errInS g w t1 (n, 0) <;>
      by_cases hc2 : (t2 : Rat) ≤ (g n 0 : Rat) + errInS g w t2 (n, 0)
    · have hO1 : outS g w t1 (n, 0) = 255 := by rw [outS_row]; exact if_pos hc1
      have hO2 : outS g w t2 (n, 0) = 255 := by rw [outS_row]; exact if_pos hc2
      rw [hO1, hO2]
      constructor
      · simp
        omega
      · push_cast
        linarith
    · have hO1 : outS g w t1 (n, 0) = 255 := by rw [outS_row]; exact if_pos hc1
      have hO2 : outS g w t2 (n, 0) = 0 := by rw [outS_row]; exact if_neg hc2
      rw [hO1, hO2]
      constructor
      · simp
        omega
      · push_cast
        linarith
    · -- run 1 black, run 2 white: only possible when the error gap is negative
      have hO1 : outS g w t1 (n, 0) = 0 := by rw [outS_row]; exact if_neg hc1
      have hO2 : outS g w t2 (n, 0) = 255 := by rw [outS_row]; exact if_pos hc2
      have hT : (t1 : Rat) + 1 ≤ (t2 : Rat) := by
        have : (t1 + 1 : Nat) ≤ t2 := hlt
        exact_mod_cast this
      have hD : errInS g w t1 (n, 0) - errInS g w t2 (n, 0) < -1 + 0 := by
        push_neg at hc1
        linarith
      have hCpos : (0 : Rat) < (cnt g w t1 n : Rat) - (cnt g w t2 n : Rat) := by
        by_contra hcon
        push_neg at hcon
        linarith
      have hltc : cnt g w t2 n < cnt g w t1 n := by
        have : (cnt g w t2 n : Rat) < (cnt g w t1 n : Rat) := by linarith
        exact_mod_cast this
      have hC1 : (1 : Rat) ≤ (cnt g w t1 n : Rat) - (cnt g w t2 n : Rat) := by
        have : (cnt g w t2 n + 1 : Nat) ≤ cnt g w t1 n := hltc
        have hcast := (Nat.cast_le (α := Rat)).mpr this
        push_cast at hcast
        linarith
      rw [hO1, hO2]
      constructor
      · simp
        omega
      · push_cast
        linarith
    · have hO1 : outS g w t1 (n, 0) = 0 := by rw [outS_row]; exact if_neg hc1
      have hO2 : outS g w t2 (n, 0) = 0 := by rw [outS_row]; exact if_neg hc2
      rw [hO1, hO2]
      constructor
      · simp
        omega
      · push_cast
        linarith

theorem whiteCount_runDither_row (b : Buffer) (h1 : b.height = 1) (thr : Nat) :
    whiteCount (runDither b thr) = cnt b.getPixel b.width thr b.width := by
  unfold whiteCount runDither cnt
  rw [h1]
  unfold rasterOrder
  rw [show List.range 1 = [0] from by simp [List.range_succ]]
  simp only [List.flatMap_cons, List.flatMap_nil, List.append_nil]
  rw [List.countP_map, List.countP_map]
  apply List.countP_congr
  intro a hain
  have haw : a < b.width := List.mem_range.mp hain
  simp only [Function.comp]
  rw [dither_out b.getPixel b.width 1 thr a 0 haw (by omega)]

theorem runDither_binary (b : Buffer) (thr : Nat) :
    ∀ v ∈ (runDither b thr).data, v = 0 ∨ v = 255 := by
  intro v hv
  unfold runDither at hv
  simp only [List.mem_map] at hv
  obtain ⟨p, hp, hout⟩ := hv
  unfold rasterOrder at hp
  simp only [List.mem_flatMap, List.mem_map, List.mem_range] at hp
  obtain ⟨y, hy, x, hx, hpe⟩ := hp
  subst hpe
  rw [dither_out b.getPixel b.width b.height thr x y hx hy] at hout
  unfold outS at hout
  subst hout
  split
  · right
    rfl
  · left
    rfl

theorem invert_binary (b : Buffer) (hb : ∀ v ∈ b.data, v = 0 ∨ v = 255) :
    ∀ v ∈ (invert b).data, v = 0 ∨ v = 255 := by
  intro v hv
  unfold invert at hv
  simp only [List.mem_map] at hv
  obtain ⟨u, hu, hue⟩ := hv
  subst hue
  rcases hb u hu with h0 | h255
  · subst h0
    right
    rfl
  · subst h255
    left
    rfl

theorem invert_invert (b : Buffer) (hbin : ∀ v ∈ b.data, v = 0 ∨ v = 255) :
    invert (invert b) = b := by
  unfold invert
  obtain ⟨w, h, data⟩ := b
  simp only [Buffer.mk.injEq, true_and]
  rw [List.map_map]
  have hcong : ∀ v ∈ data, ((fun v => 255 - v) ∘ fun v => 255 - v) v = id v := by
    intro v hv
    rcases hbin v hv with h0 | h255
    · subst h0
      rfl
    · subst h255
      rfl
  rw [List.map_congr_left hcong, List.map_id]

theorem sliderValue_bounds (sets : List Int) :
    0 ≤ sliderValue sets ∧ sliderValue sets ≤ 255 := by
  unfold sliderValue
  have hgen : ∀ (l : List Int) (i : Int), 0 ≤ i → i ≤ 255 →
      0 ≤ l.foldl (fun _ v => max 0 (min 255 v)) i ∧
        l.foldl (fun _ v => max 0 (min 255 v)) i ≤ 255 := by
    intro l
    induction l with
    | nil => intro i h0 h255; exact ⟨h0, h255⟩
    | cons a l ih =>
      intro i h0 h255
      simp only [List.foldl_cons]
      exact ih (max 0 (min 255 a)) (le_max_left 0 _) (by omega)
  exact hgen sets 128 (by omega) (by omega)

/-- C1: for every grayscale field and validated threshold, the Ditherer
(which folds over raster order: row 0 left to right, then row 1, ...)
assigns each in-bounds pixel `output = 255` when `grayscale + error ≥
threshold` and `0` otherwise, where the error arriving at a pixel is exactly
the Floyd–Steinberg kernel sum — 7/16 from (x-1,y), 3/16 from (x+1,y-1),
5/16 from (x,y-1), 1/16 from (x-1,y-1) — of the quantization errors
`biased - output` of its already-processed neighbors, with contributions
across the buffer boundary dropped. -/
theorem claim_C1 (g : Nat → Nat → Nat) (w h thr x y : Nat) (hx : x < w) (hy : y < h) :
    (dither g w h thr).out (x, y)
        = (if (thr : Rat) ≤ (g x y : Rat) + errInS g w thr (x, y) then 255 else 0) ∧
      ((dither g w h thr).err (x, y)).toRat = errInS g w thr (x, y) ∧
      errInS g w thr (x, y)
        = (if 0 < x then 7 / 16 * qeS g w thr (x - 1, y) else 0)
          + (if 0 < y ∧ x + 1 < w then 3 / 16 * qeS g w thr (x + 1, y - 1) else 0)
          + (if 0 < y ∧ x < w then 5 / 16 * qeS g w thr (x, y - 1) else 0)
          + (if 0 < x ∧ 0 < y then 1 / 16 * qeS g w thr (x - 1, y - 1) else 0) ∧
      qeS g w thr (x, y)
        = ((g x y : Rat) + errInS g w thr (x, y))
            - ((dither g w h thr).out (x, y) : Rat) := by
  refine ⟨?_, dither_err g w h thr x y hx hy, rfl, ?_⟩
  · rw [dither_out g w h thr x y hx hy]
    unfold outS biasedS
    rfl
  · rw [dither_out g w h thr x y hx hy, qeS_eq]
    unfold biasedS
    rfl

theorem claim_C1_witness :
    (1 < 2 ∧ 0 < 2) ∧
      ((dither (fun _ _ => 200) 2 2 128).out (1, 0)
          = (if (128 : Rat) ≤ ((200 : Nat) : Rat) + errInS (fun _ _ => 200) 2 128 (1, 0)
              then 255 else 0) ∧
        ((dither (fun _ _ => 200) 2 2 128).err (1, 0)).toRat
          = errInS (fun _ _ => 200) 2 128 (1, 0) ∧
        errInS (fun _ _ => 200) 2 128 (1, 0)
          = (if 0 < 1 then 7 / 16 * qeS (fun _ _ => 200) 2 128 (1 - 1, 0) else 0)
            + (if 0 < 0 ∧ 1 + 1 < 2 then 3 / 16 * qeS (fun _ _ => 200) 2 128 (1 + 1, 0 - 1) else 0)
            + (if 0 < 0 ∧ 1 < 2 then 5 / 16 * qeS (fun _ _ => 200) 2 128 (1, 0 - 1) else 0)
            + (if 0 < 1 ∧ 0 < 0 then 1 / 16 * qeS (fun _ _ => 200) 2 128 (1 - 1, 0 - 1) else 0) ∧
        qeS (fun _ _ => 200) 2 128 (1, 0)
          = (((200 : Nat) : Rat) + errInS (fun _ _ => 200) 2 128 (1, 0))
              - (((dither (fun _ _ => 200) 2 2 128).out (1, 0) : Nat) : Rat)) :=
  ⟨⟨by decide, by decide⟩, claim_C1 (fun _ _ => 200) 2 2 128 1 0 (by decide) (by decide)⟩

/-- C2: for every decoded pixel buffer, threshold and invert flag, every
sample of the binary buffer handed to the encoder (after dithering and
optional inversion) is exactly 0 or 255. -/
theorem claim_C2 (pix : PixelBuffer) (thr : Nat) (inv : Int) :
    ∀ v ∈ (pipelineBin pix thr inv).data, v = 0 ∨ v = 255 := by
  intro v hv
  unfold pipelineBin at hv
  by_cases hi : inv = 0
  · rw [if_pos hi] at hv
    exact runDither_binary (toGray pix) thr v hv
  · rw [if_neg hi] at hv
    exact invert_binary (runDither (toGray pix) thr) (runDither_binary (toGray pix) thr) v hv

theorem claim_C2_witness :
    (0 : Nat) ∈ (pipelineBin ⟨1, 1, 1, [200]⟩ 128 1).data ∧ ((0 : Nat) = 0 ∨ (0 : Nat) = 255) :=
  ⟨by decide, claim_C2 ⟨1, 1, 1, [200]⟩ 128 1 0 (by decide)⟩

/-- C5: the Inverter is an involution on binary buffers — applying the
pixelwise `255 - v` map twice reproduces any buffer whose samples are all
0 or 255. -/
theorem claim_C5 (b : Buffer) (hbin : ∀ v ∈ b.data, v = 0 ∨ v = 255) :
    invert (invert b) = b :=
  invert_invert b hbin

theorem claim_C5_witness :
    (∀ v ∈ (Buffer.mk 1 2 [0, 255]).data, v = 0 ∨ v = 255) ∧
      invert (invert (Buffer.mk 1 2 [0, 255])) = Buffer.mk 1 2 [0, 255] :=
  ⟨by decide, claim_C5 (Buffer.mk 1 2 [0, 255]) (by decide)⟩

set_option maxRecDepth 100000 in
/-- C7 counterexample: on the 2-by-3 uniform field of value 31, threshold 31
produces 1 white pixel while the larger threshold 32 produces 2, so the
white count is not monotonically non-increasing in the threshold. -/
theorem claim_C7_counterexample :
    31 < 32 ∧
      whiteCount (runDither (uniformBuffer 2 3 31) 31) = 1 ∧
      whiteCount (runDither (uniformBuffer 2 3 31) 32) = 2 ∧
      ¬ (whiteCount (runDither (uniformBuffer 2 3 31) 32)
          ≤ whiteCount (runDither (uniformBuffer 2 3 31) 31)) :=
  ⟨by decide, by decide, by decide, by decide⟩

/-- C7 (amended): on single-row uniform fields the white count is
monotonically non-increasing in the threshold. -/
theorem claim_C7_amended (w v t1 t2 : Nat) (hlt : t1 < t2) :
    whiteCount (runDither (uniformBuffer w 1 v) t2)
      ≤ whiteCount (runDither (uniformBuffer w 1 v) t1) := by
  rw [whiteCount_runDither_row (uniformBuffer w 1 v) rfl t2,
      whiteCount_runDither_row (uniformBuffer w 1 v) rfl t1]
  exact (row_lockstep (uniformBuffer w 1 v).getPixel (uniformBuffer w 1 v).width
    t1 t2 hlt (uniformBuffer w 1 v).width).1

theorem claim_C7_amended_witness :
    10 < 20 ∧
      whiteCount (runDither (uniformBuffer 3 1 100) 20)
        ≤ whiteCount (runDither (uniformBuffer 3 1 100) 10) :=
  ⟨by decide, claim_C7_amended 3 100 10 20 (by decide)⟩

/-- C3: conversion is deterministic — two runs that read identical input
bytes (even at different paths, against different file systems) with the
same threshold and invert flag return the same status code and write
byte-identical output; the engine's arithmetic is exact fixed-point, so the
result is a function of the input bytes and options alone. -/
theorem claim_C3 (fs1 fs2 : String → Option (List Nat)) (wOk : Bool)
    (p1 p2 o1 o2 : String) (thr : Int) (inv verb : Int)
    (hbytes : fs1 p1 = fs2 p2) (hp1 : p1 ≠ "") (hp2 : p2 ≠ "")
    (ho1 : o1 ≠ "") (ho2 : o2 ≠ "") :
    (convert_image_bw fs1 wOk p1 o1 thr inv verb).status
        = (convert_image_bw fs2 wOk p2 o2 thr inv verb).status ∧
      (convert_image_bw fs1 wOk p1 o1 thr inv verb).outBytes
        = (convert_image_bw fs2 wOk p2 o2 thr inv verb).outBytes := by
  unfold convert_image_bw
  by_cases hv : thr < 0 ∨ 255 < thr
  · have c1 : thr < 0 ∨ 255 < thr ∨ p1 = "" ∨ o1 = "" := by tauto
    have c2 : thr < 0 ∨ 255 < thr ∨ p2 = "" ∨ o2 = "" := by tauto
    rw [if_pos c1, if_pos c2]
    exact ⟨rfl, rfl⟩
  · push_neg at hv
    have c1 : ¬(thr < 0 ∨ 255 < thr ∨ p1 = "" ∨ o1 = "") := by
      push_neg
      exact ⟨hv.1, hv.2, hp1, ho1⟩
    have c2 : ¬(thr < 0 ∨ 255 < thr ∨ p2 = "" ∨ o2 = "") := by
      push_neg
      exact ⟨hv.1, hv.2, hp2, ho2⟩
    rw [if_neg c1, if_neg c2, hbytes]
    cases hfs : fs2 p2 with
    | none => exact ⟨rfl, rfl⟩
    | some bytes =>
      cases hdec : decode bytes with
      | none => exact ⟨rfl, rfl⟩
      | some pix => cases wOk <;> exact ⟨rfl, rfl⟩

theorem claim_C3_witness :
    ((fun _ => some ([] : List Nat)) "a.png" = (fun _ => some ([] : List Nat)) "b.png"
        ∧ "a.png" ≠ "" ∧ "b.png" ≠ "" ∧ "o1.png" ≠ "" ∧ "o2.png" ≠ "") ∧
      ((convert_image_bw (fun _ => some []) true "a.png" "o1.png" 128 0 0).status
          = (convert_image_bw (fun _ => some []) true "b.png" "o2.png" 128 0 0).status ∧
        (convert_image_bw (fun _ => some []) true "a.png" "o1.png" 128 0 0).outBytes
          = (convert_image_bw (fun _ => some []) true "b.png" "o2.png" 128 0 0).outBytes) :=
  ⟨⟨rfl, by decide, by decide, by decide, by decide⟩,
   claim_C3 (fun _ => some []) (fun _ => some []) true "a.png" "b.png" "o1.png" "o2.png"
     128 0 0 rfl (by decide) (by decide) (by decide) (by decide)⟩

/-- C4: the orchestrator maps each failure to exactly one status code — an
out-of-range threshold gives 4 with no decoding attempted and nothing
written; an unreadable input gives 1 with no output; undecodable bytes (such
as a zero-byte file) give 2; an output-write failure gives 3 with no temp
file left; and the fully successful path returns 0. -/
theorem claim_C4 (fs : String → Option (List Nat)) (wOk : Bool) (ip op : String)
    (thr : Int) (inv verb : Int) (hip : ip ≠ "") (hop : op ≠ "") :
    ((thr < 0 ∨ 255 < thr) →
      (convert_image_bw fs wOk ip op thr inv verb).status = 4 ∧
        (convert_image_bw fs wOk ip op thr inv verb).outBytes = none ∧
        Stage.sniff ∉ (convert_image_bw fs wOk ip op thr inv verb).stages) ∧
    (0 ≤ thr → thr ≤ 255 → fs ip = none →
      (convert_image_bw fs wOk ip op thr inv verb).status = 1 ∧
        (convert_image_bw fs wOk ip op thr inv verb).outBytes = none) ∧
    (∀ bytes, 0 ≤ thr → thr ≤ 255 → fs ip = some bytes → decode bytes = none →
      (convert_image_bw fs wOk ip op thr inv verb).status = 2 ∧
        (convert_image_bw fs wOk ip op thr inv verb).outBytes = none) ∧
    (∀ bytes pix, 0 ≤ thr → thr ≤ 255 → fs ip = some bytes → decode bytes = some pix →
      wOk = false →
      (convert_image_bw fs wOk ip op thr inv verb).status = 3 ∧
        (convert_image_bw fs wOk ip op thr inv verb).outBytes = none ∧
        (convert_image_bw fs wOk ip op thr inv verb).tempLeft = false) ∧
    (∀ bytes pix, 0 ≤ thr → thr ≤ 255 → fs ip = some bytes → decode bytes = some pix →
      wOk = true → (convert_image_bw fs wOk ip op thr inv verb).status = 0) := by
  refine ⟨?_, ?_, ?_, ?_, ?_⟩
  · intro hv
    unfold convert_image_bw
    have c1 : thr < 0 ∨ 255 < thr ∨ ip = "" ∨ op = "" := by tauto
    rw [if_pos c1]
    exact ⟨rfl, rfl, (by decide : Stage.sniff ∉ [Stage.validate])⟩
  · intro h0 h255 hfs
    unfold convert_image_bw
    have c1 : ¬(thr < 0 ∨ 255 < thr ∨ ip = "" ∨ op = "") := by
      push_neg
      exact ⟨by omega, by omega, hip, hop⟩
    rw [if_neg c1, hfs]
    exact ⟨rfl, rfl⟩
  · intro bytes h0 h255 hfs hdec
    unfold convert_image_bw
    have c1 : ¬(thr < 0 ∨ 255 < thr ∨ ip = "" ∨ op = "") := by
      push_neg
      exact ⟨by omega, by omega, hip, hop⟩
    rw [if_neg c1, hfs]
    simp [hdec]
  · intro bytes pix h0 h255 hfs hdec hw
    subst hw
    unfold convert_image_bw
    have c1 : ¬(thr < 0 ∨ 255 < thr ∨ ip = "" ∨ op = "") := by
      push_neg
      exact ⟨by omega, by omega, hip, hop⟩
    rw [if_neg c1, hfs]
    simp [hdec]
  · intro bytes pix h0 h255 hfs hdec hw
    subst hw
    unfold convert_image_bw
    have c1 : ¬(thr < 0 ∨ 255 < thr ∨ ip = "" ∨ op = "") := by
      push_neg
      exact ⟨by omega, by omega, hip, hop⟩
    rw [if_neg c1, hfs]
    simp [hdec]

theorem claim_C4_witness :
    ("in.png" ≠ "" ∧ "out.png" ≠ "") ∧
      ((convert_image_bw (fun _ => none) true "in.png" "out.png" 300 0 0).status = 4 ∧
        (convert_image_bw (fun _ => none) true "in.png" "out.png" 300 0 0).outBytes = none ∧
        Stage.sniff ∉ (convert_image_bw (fun _ => none) true "in.png" "out.png" 300 0 0).stages) ∧
      ((convert_image_bw (fun _ => none) true "in.png" "out.png" 128 0 0).status = 1 ∧
        (convert_image_bw (fun _ => none) true "in.png" "out.png" 128 0 0).outBytes = none) :=
  ⟨⟨by decide, by decide⟩,
   (claim_C4 (fun _ => none) true "in.png" "out.png" 300 0 0 (by decide) (by decide)).1
     (by omega),
   (claim_C4 (fun _ => none) true "in.png" "out.png" 128 0 0 (by decide) (by decide)).2.1
     (by omega) (by omega) rfl⟩

/-- C6: verbose mode is transparent — toggling the verbose flag changes
neither the status code returned by the engine nor the bytes written to the
output path. -/
theorem claim_C6 (fs : String → Option (List Nat)) (wOk : Bool) (ip op : String)
    (thr inv v1 v2 : Int) :
    (convert_image_bw fs wOk ip op thr inv v1).status
        = (convert_image_bw fs wOk ip op thr inv v2).status ∧
      (convert_image_bw fs wOk ip op thr inv v1).outBytes
        = (convert_image_bw fs wOk ip op thr inv v2).outBytes := by
  unfold convert_image_bw
  by_cases hv : thr < 0 ∨ 255 < thr ∨ ip = "" ∨ op = ""
  · rw [if_pos hv, if_pos hv]
    exact ⟨rfl, rfl⟩
  · rw [if_neg hv, if_neg hv]
    cases hfs : fs ip with
    | none => simp
    | some bytes =>
      cases hdec : decode bytes with
      | none => simp [hdec]
      | some pix => cases wOk <;> simp [hdec]

/-- C8: output writes are atomic — no temporary file is ever left behind,
and the output path is either untouched or holds exactly the complete
encoding of the final binary buffer, produced with status 0. -/
theorem claim_C8 (fs : String → Option (List Nat)) (wOk : Bool) (ip op : String)
    (thr inv verb : Int) :
    (convert_image_bw fs wOk ip op thr inv verb).tempLeft = false ∧
      ((convert_image_bw fs wOk ip op thr inv verb).outBytes = none ∨
        ((convert_image_bw fs wOk ip op thr inv verb).status = 0 ∧
          ∃ bytes pix, fs ip = some bytes ∧ decode bytes = some pix ∧
            (convert_image_bw fs wOk ip op thr inv verb).outBytes
              = some (encodePNG (pipelineBin pix thr.toNat inv)))) := by
  unfold convert_image_bw
  by_cases hv : thr < 0 ∨ 255 < thr ∨ ip = "" ∨ op = ""
  · rw [if_pos hv]
    exact ⟨rfl, Or.inl rfl⟩
  · rw [if_neg hv]
    cases hfs : fs ip with
    | none => exact ⟨rfl, Or.inl rfl⟩
    | some bytes =>
      cases hdec : decode bytes with
      | none =>
        constructor
        · simp [hdec]
        · left
          simp [hdec]
      | some pix =>
        cases wOk
        · constructor
          · simp [hdec]
          · left
            simp [hdec]
        · constructor
          · simp [hdec]
          · right
            refine ⟨by simp [hdec], bytes, pix, rfl, hdec, by simp [hdec]⟩

/-- C9: the GUI convert handler calls the backend exactly when both stripped
path fields are non-empty; otherwise it only sets a status message, so every
backend call carries non-empty paths and the engine's empty-path
InvalidArgument case is unreachable through this handler. -/
theorem claim_C9 (iTxt oTxt : String) (thr : Int) (inv verb : Bool) :
    ((stripStr iTxt = "" ∨ stripStr oTxt = "") →
      BWConverter.convert iTxt oTxt thr inv verb
        = GuiAction.message "Please choose both input and output.") ∧
    (stripStr iTxt ≠ "" → stripStr oTxt ≠ "" →
      BWConverter.convert iTxt oTxt thr inv verb
        = GuiAction.callBackend (stripStr iTxt) (stripStr oTxt) thr
            (if inv then 1 else 0) (if verb then 1 else 0)) ∧
    (∀ p q a c d, BWConverter.convert iTxt oTxt thr inv verb
        = GuiAction.callBackend p q a c d → p ≠ "" ∧ q ≠ "") := by
  unfold BWConverter.convert
  by_cases he : stripStr iTxt = "" ∨ stripStr oTxt = ""
  · rw [if_pos he]
    refine ⟨fun _ => rfl, fun h1 h2 => absurd he (by tauto), ?_⟩
    intro p q a c d hcall
    exact absurd hcall (by simp)
  · rw [if_neg he]
    push_neg at he
    refine ⟨fun hc => absurd hc (by tauto), fun _ _ => rfl, ?_⟩
    intro p q a c d hcall
    rw [GuiAction.callBackend.injEq] at hcall
    obtain ⟨hp, hq, -, -, -⟩ := hcall
    exact ⟨hp ▸ he.1, hq ▸ he.2⟩

/-- C10: the GUI threshold always lies in [0,255] (the slider clamps to its
0-255 range and starts at 128), so a backend call issued by the handler can
never return the InvalidArgument status 4. -/
theorem claim_C10 (sets : List Int) (iTxt oTxt : String) (inv verb : Bool) :
    0 ≤ sliderValue sets ∧ sliderValue sets ≤ 255 ∧
      ∀ p q a c d, BWConverter.convert iTxt oTxt (sliderValue sets) inv verb
          = GuiAction.callBackend p q a c d →
        ∀ fs wOk, (convert_image_bw fs wOk p q a c d).status ≠ 4 := by
  obtain ⟨hlo, hhi⟩ := sliderValue_bounds sets
  refine ⟨hlo, hhi, ?_⟩
  intro p q a c d hcall fs wOk
  unfold BWConverter.convert at hcall
  by_cases he : stripStr iTxt = "" ∨ stripStr oTxt = ""
  · rw [if_pos he] at hcall
    exact absurd hcall (by simp)
  · rw [if_neg he] at hcall
    push_neg at he
    rw [GuiAction.callBackend.injEq] at hcall
    obtain ⟨hp, hq, ha, -, -⟩ := hcall
    have hp' : p ≠ "" := hp ▸ he.1
    have hq' : q ≠ "" := hq ▸ he.2
    have hane : ¬(a < 0 ∨ 255 < a ∨ p = "" ∨ q = "") := by
      push_neg
      exact ⟨by omega, by omega, hp', hq'⟩
    unfold convert_image_bw
    rw [if_neg hane]
    cases hfsp : fs p with
    | none => simp
    | some bytes =>
      cases hdec : decode bytes with
      | none => simp [hdec]
      | some pix => cases wOk <;> simp [hdec]
